import Mathlib

/-!
Verification model of the commit-index core of this repository.

The index implementation (default index store, RevWalk, change-id index,
recovery) is not among the source files; only its test suite
(`lib/tests/test_index.rs`) and callers are.  Every definition below is
therefore modelled from the specification document, and each claim is
checked both in general (theorems over all well-formed inputs) and on the
concrete scenarios pinned by the test suite (the 8-commit
diamond-plus-branch DAG, criss-cross DAGs, the incremental-squash level
layouts, the change-id prefix scenarios).
-/

namespace JJ

/-- Modelled from the spec: an index is a sequence of `IndexEntry` records in
topological/insertion order (spec §3).  For graph queries only the parent
structure matters, so a DAG is the list of per-entry parent-position lists:
entry `i`'s parents are `g.getD i []`, all strictly smaller than `i`
("a commit's position exceeds all its parents' positions").  Position 0 is
the root. -/
abbrev Dag := List (List Nat)

/-- Parent positions of the entry at position `i` (empty when out of range). -/
def parentsOf (g : Dag) (i : Nat) : List Nat := g.getD i []

/-- Modelled from the spec: well-formedness invariants of §3 — "parents must
be indexed before children (no forward references)" (every parent position is
strictly below the child's), and every non-root entry has at least one parent
(the root is the ancestor of every indexed commit).  The root's parent list
is forced empty because no position is below 0. -/
def WfDag (g : Dag) : Prop :=
  ∀ i, i < g.length → (∀ p ∈ parentsOf g i, p < i) ∧ (0 < i → parentsOf g i ≠ [])

instance (g : Dag) : Decidable (WfDag g) := by
  unfold WfDag; infer_instance

/-- Number of indexed commits (`num_commits()` of the spec §4.2). -/
def numCommits (g : Dag) : Nat := g.length

/-- `stats().num_merges`: the number of indexed commits with two or more
parents. -/
def numMerges (g : Dag) : Nat := (g.filter (fun ps => 2 ≤ ps.length)).length

/-- Generic single pass that computes one derived `Nat` per entry, front to
back, each value computed by `f` from the table built so far and the entry's
parent list — the shape in which the mutable index computes per-commit
metadata at `add_commit` time. -/
def tableAux (f : List Nat → List Nat → Nat) : List (List Nat) → List Nat → List Nat
  | [], acc => acc
  | ps :: rest, acc => tableAux f rest (acc ++ [f acc ps])

/-- Build the full derived table of a DAG. -/
def buildTable (f : List Nat → List Nat → Nat) (g : Dag) : List Nat := tableAux f g []

/-- Modelled from the spec: one generation-number computation step —
"GenerationNumber: 1 + max(generation of parents); root = 0" (§3). -/
def genStep (acc : List Nat) (ps : List Nat) : Nat :=
  if ps.isEmpty then 0 else (ps.map (fun p => acc.getD p 0)).foldl Nat.max 0 + 1

/-- The generation numbers of all entries, as stored in the index. -/
def genTable (g : Dag) : List Nat := buildTable genStep g

/-- `generation_number` lookup by position (spec §4.2). -/
def generationNumber (g : Dag) (i : Nat) : Nat := (genTable g).getD i 0

/-- `stats().max_generation_number`. -/
def maxGen (g : Dag) : Nat := (genTable g).foldl Nat.max 0

/-- Number of distinct parent-paths from an entry down to a parentless entry;
what a traversal WITHOUT deduplication would visit.  Used to witness that the
deduplicating walks are exponentially cheaper on criss-cross DAGs. -/
def pathStep (acc : List Nat) (ps : List Nat) : Nat :=
  if ps.isEmpty then 1 else (ps.map (fun p => acc.getD p 0)).foldl (· + ·) 0

/-- Table of per-entry path counts. -/
def pathTable (g : Dag) : List Nat := buildTable pathStep g

/-- Modelled from the spec: the plain RevWalk of §4.4 — "traversal proceeds
from higher-position (later) nodes toward lower-position ones, deduplicating
visited nodes by position".  The counter sweeps positions downward; a
position is emitted (and its parents scheduled) the first time the sweep
passes it while pending, so each position is processed at most once and the
whole walk takes exactly `g.length` steps however many parent-paths exist. -/
def walkGo (g : Dag) : Nat → List Nat → List Nat
  | 0, _ => []
  | n + 1, pending =>
    if n ∈ pending then n :: walkGo g n (pending ++ parentsOf g n)
    else walkGo g n pending

/-- All positions reachable from `heads` by following parent edges
(the heads themselves included), in decreasing position order. -/
def ancestorsOf (g : Dag) (heads : List Nat) : List Nat :=
  walkGo g g.length heads

/-- `is_ancestor(a, b)` (spec §4.2): true iff `a == b` or `a` is reachable by
following parent edges from `b`; answered by the deduplicating RevWalk. -/
def isAncestor (g : Dag) (a b : Nat) : Bool := (ancestorsOf g [b]).contains a

/-- The specification's reachability relation, stated as the spec words it:
`Reaches g a b` holds iff `a == b` or `a` is reachable from `b` by following
parent edges. -/
inductive Reaches (g : Dag) : Nat → Nat → Prop
  | refl (b : Nat) : Reaches g b b
  | step {a p b : Nat} : p ∈ parentsOf g b → Reaches g a p → Reaches g a b

theorem tableAux_length (f : List Nat → List Nat → Nat) (l : List (List Nat)) (acc : List Nat) :
    (tableAux f l acc).length = acc.length + l.length := by
  induction l generalizing acc with
  | nil => simp [tableAux]
  | cons ps rest ih =>
    rw [tableAux, ih]
    simp
    omega

theorem tableAux_getD_of_lt (f : List Nat → List Nat → Nat) (l : List (List Nat))
    (acc : List Nat) (i : Nat) (h : i < acc.length) :
    (tableAux f l acc).getD i 0 = acc.getD i 0 := by
  induction l generalizing acc with
  | nil => rfl
  | cons ps rest ih =>
    rw [tableAux, ih]
    · exact List.getD_append acc _ 0 i h
    · simp
      omega

theorem tableAux_getD_spec (f : List Nat → List Nat → Nat)
    (hf : ∀ a₁ a₂ ps, (∀ p ∈ ps, a₁.getD p 0 = a₂.getD p 0) → f a₁ ps = f a₂ ps)
    (l : List (List Nat)) (acc : List Nat) (j : Nat) (hj : j < l.length)
    (hp : ∀ p ∈ l.getD j [], p < acc.length + j) :
    (tableAux f l acc).getD (acc.length + j) 0 = f (tableAux f l acc) (l.getD j []) := by
  induction l generalizing acc j with
  | nil => simp at hj
  | cons ps rest ih =>
    cases j with
    | zero =>
      rw [tableAux]
      have hlen : acc.length + 0 < (acc ++ [f acc ps]).length := by simp
      rw [tableAux_getD_of_lt f rest _ _ hlen]
      have hval : (acc ++ [f acc ps]).getD (acc.length + 0) 0 = f acc ps := by
        simp [List.getD_append_right]
      rw [hval]
      show f acc ps = f (tableAux f rest (acc ++ [f acc ps])) ((ps :: rest).getD 0 [])
      have hps : (ps :: rest).getD 0 [] = ps := rfl
      rw [hps]
      apply hf
      intro p hpmem
      have hplt : p < acc.length := by
        have := hp p (by simpa using hpmem)
        omega
      rw [tableAux_getD_of_lt f rest _ _ (by simp; omega)]
      exact (List.getD_append acc _ 0 p hplt).symm
    | succ j =>
      rw [tableAux]
      have harith : acc.length + (j + 1) = (acc ++ [f acc ps]).length + j := by
        simp
        omega
      rw [harith]
      have hget : (ps :: rest).getD (j + 1) [] = rest.getD j [] := rfl
      rw [hget]
      apply ih
      · simpa using hj
      · intro p hpmem
        have := hp p (by rw [hget]; exact hpmem)
        simp
        omega

theorem genStep_congr (a₁ a₂ ps : List Nat)
    (h : ∀ p ∈ ps, a₁.getD p 0 = a₂.getD p 0) : genStep a₁ ps = genStep a₂ ps := by
  unfold genStep
  have hmap : ps.map (fun p => a₁.getD p 0) = ps.map (fun p => a₂.getD p 0) :=
    List.map_congr_left h
  rw [hmap]

theorem pathStep_congr (a₁ a₂ ps : List Nat)
    (h : ∀ p ∈ ps, a₁.getD p 0 = a₂.getD p 0) : pathStep a₁ ps = pathStep a₂ ps := by
  unfold pathStep
  have hmap : ps.map (fun p => a₁.getD p 0) = ps.map (fun p => a₂.getD p 0) :=
    List.map_congr_left h
  rw [hmap]

theorem genTable_length (g : Dag) : (genTable g).length = g.length := by
  simpa using tableAux_length genStep g []

theorem pathTable_length (g : Dag) : (pathTable g).length = g.length := by
  simpa using tableAux_length pathStep g []

/-- The stored generation numbers satisfy the defining recurrence at every
indexed position. -/
theorem generationNumber_rec (g : Dag) (hwf : WfDag g) (i : Nat) (hi : i < g.length) :
    generationNumber g i = genStep (genTable g) (parentsOf g i) := by
  have hp : ∀ p ∈ g.getD i [], p < List.length ([] : List Nat) + i := by
    intro p hpmem
    have := (hwf i hi).1 p hpmem
    simpa using this
  have h := tableAux_getD_spec genStep genStep_congr g [] i hi hp
  simpa [generationNumber, genTable, buildTable, parentsOf] using h

/-- Path counts satisfy their defining recurrence at every indexed position. -/
theorem pathTable_rec (g : Dag) (hwf : WfDag g) (i : Nat) (hi : i < g.length) :
    (pathTable g).getD i 0 = pathStep (pathTable g) (parentsOf g i) := by
  have hp : ∀ p ∈ g.getD i [], p < List.length ([] : List Nat) + i := by
    intro p hpmem
    have := (hwf i hi).1 p hpmem
    simpa using this
  have h := tableAux_getD_spec pathStep pathStep_congr g [] i hi hp
  simpa [pathTable, buildTable, parentsOf] using h

/-- Every position the walk emits is below its counter. -/
theorem walkGo_mem_lt (g : Dag) (n : Nat) (pending : List Nat) (m : Nat)
    (h : m ∈ walkGo g n pending) : m < n := by
  induction n generalizing pending with
  | zero => simp [walkGo] at h
  | succ n ih =>
    rw [walkGo] at h
    by_cases hc : n ∈ pending
    · simp only [if_pos hc, List.mem_cons] at h
      cases h with
      | inl h => omega
      | inr h => have := ih _ h; omega
    · rw [if_neg hc] at h
      have := ih _ h
      omega

/-- Soundness of the walk: everything emitted is reachable from some pending
position. -/
theorem walkGo_sound (g : Dag) (n : Nat) (pending : List Nat) (m : Nat)
    (h : m ∈ walkGo g n pending) : ∃ b ∈ pending, Reaches g m b := by
  induction n generalizing pending with
  | zero => simp [walkGo] at h
  | succ n ih =>
    rw [walkGo] at h
    by_cases hc : n ∈ pending
    · simp only [if_pos hc, List.mem_cons] at h
      cases h with
      | inl h => exact ⟨n, hc, h ▸ Reaches.refl m⟩
      | inr h =>
        obtain ⟨b, hb, hreach⟩ := ih _ h
        rcases List.mem_append.mp hb with hb | hb
        · exact ⟨b, hb, hreach⟩
        · exact ⟨n, hc, Reaches.step hb hreach⟩
    · rw [if_neg hc] at h
      exact ih _ h

/-- Completeness of the walk: any position reachable from a pending position
below the counter is emitted.  Deduplication loses nothing. -/
theorem walkGo_complete (g : Dag) (hwf : WfDag g) (n : Nat) (hn : n ≤ g.length)
    (pending : List Nat) (b m : Nat) (hb : b ∈ pending) (hbn : b < n)
    (hreach : Reaches g m b) : m ∈ walkGo g n pending := by
  induction n generalizing pending b with
  | zero => omega
  | succ n ih =>
    rw [walkGo]
    by_cases hc : n ∈ pending
    · rw [if_pos hc]
      by_cases hbeq : b = n
      · subst hbeq
        cases hreach with
        | refl => exact List.mem_cons_self _ _
        | step hp hreach' =>
          rename_i p
          have hplt : p < b := (hwf b (by omega)).1 p hp
          refine List.mem_cons_of_mem _ ?_
          exact ih (by omega) (pending ++ parentsOf g b)
            p (List.mem_append.mpr (Or.inr hp)) (by omega) hreach'
      · refine List.mem_cons_of_mem _ ?_
        exact ih (by omega) (pending ++ parentsOf g n)
          b (List.mem_append.mpr (Or.inl hb)) (by omega) hreach
    · rw [if_neg hc]
      have hbne : b ≠ n := fun h => hc (h ▸ hb)
      exact ih (by omega) pending b hb (by omega) hreach

/-- `ancestorsOf` computes exactly the reachable set. -/
theorem mem_ancestorsOf_iff (g : Dag) (hwf : WfDag g) (heads : List Nat)
    (hheads : ∀ b ∈ heads, b < g.length) (m : Nat) :
    m ∈ ancestorsOf g heads ↔ ∃ b ∈ heads, Reaches g m b := by
  constructor
  · exact walkGo_sound g g.length heads m
  · rintro ⟨b, hb, hreach⟩
    exact walkGo_complete g hwf g.length (Nat.le_refl _) heads b m hb (hheads b hb) hreach

/-- `is_ancestor(a, b)` decides the specification's reachability relation. -/
theorem isAncestor_iff (g : Dag) (hwf : WfDag g) (a b : Nat) (hb : b < g.length) :
    isAncestor g a b = true ↔ Reaches g a b := by
  rw [isAncestor, List.elem_iff]
  rw [mem_ancestorsOf_iff g hwf [b] (by simpa using hb) a]
  simp

/-- The root (position 0) reaches every indexed position. -/
theorem reaches_zero (g : Dag) (hwf : WfDag g) (x : Nat) (hx : x < g.length) :
    Reaches g 0 x := by
  induction x using Nat.strong_induction_on with
  | _ x ih =>
    cases x with
    | zero => exact Reaches.refl 0
    | succ x =>
      have hne := (hwf (x + 1) hx).2 (Nat.succ_pos x)
      obtain ⟨p, hp⟩ := List.exists_mem_of_ne_nil _ hne
      have hplt : p < x + 1 := (hwf (x + 1) hx).1 p hp
      exact Reaches.step hp (ih p hplt (by omega))

/-- Only the root reaches the root. -/
theorem reaches_of_zero (g : Dag) (hwf : WfDag g) (x : Nat)
    (h : Reaches g x 0) : x = 0 := by
  cases h with
  | refl => rfl
  | step hp hr =>
    rename_i p
    by_cases hlen : 0 < g.length
    · exact absurd ((hwf 0 hlen).1 p hp) (by omega)
    · have : parentsOf g 0 = [] := by
        unfold parentsOf
        cases g with
        | nil => rfl
        | cons a l => simp at hlen
      rw [this] at hp
      simp at hp

/-- The 8-commit diamond-plus-branch DAG of `test_index_commits_standard_cases`
(A; B,C from A; D from C; E from D; F from B+E; G from F; H from E), with the
root at position 0 and A..H at positions 1..8. -/
def example8 : Dag := [[], [0], [1], [1], [3], [4], [2, 5], [6], [5]]

/-- A linear chain of `n` commits on top of the root. -/
def chainDag (n : Nat) : Dag := [] :: (List.range n).map (fun i => [i])

/-- The criss-cross DAG of depth `D` of `test_index_commits_criss_cross`: two
chains whose generation-`k` commits (positions `2k+1` and `2k+2`) both have
both generation-`k-1` commits as parents; generation 0 sits on the root. -/
def crissCross : Nat → Dag
  | 0 => [[]]
  | 1 => [[], [0], [0]]
  | n + 2 => crissCross (n + 1) ++ [[2 * n + 1, 2 * n + 2], [2 * n + 1, 2 * n + 2]]

theorem parentsOf_zero (g : Dag) (hwf : WfDag g) (h : 0 < g.length) :
    parentsOf g 0 = [] := by
  refine List.eq_nil_iff_forall_not_mem.mpr fun p hp => ?_
  exact absurd ((hwf 0 h).1 p hp) (Nat.not_lt_zero p)

/-- C1: for all indexed commits, `is_ancestor(a, b)` returns true iff `a == b`
or `a` is reachable from `b` by following parent edges (the relation
`Reaches`, whose constructors are exactly "equal" and "one parent edge then
reachable"); `is_ancestor(root, x)` holds for every indexed commit `x` and
`is_ancestor(x, root)` holds only for `x = 0` (the root). -/
theorem C1_isAncestor_correct (g : Dag) (hwf : WfDag g) (x : Nat) (hx : x < g.length) :
    (∀ a, isAncestor g a x = true ↔ Reaches g a x)
    ∧ isAncestor g 0 x = true
    ∧ (isAncestor g x 0 = true → x = 0) := by
  refine ⟨fun a => isAncestor_iff g hwf a x hx, ?_, ?_⟩
  · exact (isAncestor_iff g hwf 0 x hx).mpr (reaches_zero g hwf x hx)
  · intro h
    exact reaches_of_zero g hwf x ((isAncestor_iff g hwf x 0 (by omega)).mp h)

/-- Witness for C1 on the diamond-plus-branch DAG at commit G (position 7). -/
theorem C1_witness :
    (isAncestor example8 1 7 = true ↔ Reaches example8 1 7)
    ∧ isAncestor example8 0 7 = true
    ∧ (isAncestor example8 7 0 = true → (7 : Nat) = 0) := by
  have h := C1_isAncestor_correct example8 (by decide) 7 (by decide)
  exact ⟨h.1 1, h.2.1, h.2.2⟩

/-- C2: for every indexed commit with parents, its generation number is
1 plus the maximum of its parents' generation numbers, and the generation
number is 0 exactly for the root (position 0). -/
theorem C2_generation_number (g : Dag) (hwf : WfDag g) (i : Nat) (hi : i < g.length) :
    (parentsOf g i ≠ [] →
      generationNumber g i
        = ((parentsOf g i).map (generationNumber g)).foldl Nat.max 0 + 1)
    ∧ (generationNumber g i = 0 ↔ i = 0)
    := by
  have hrec := generationNumber_rec g hwf i hi
  constructor
  · intro hne
    rw [hrec, genStep, if_neg (by simpa using hne)]
    rfl
  · cases i with
    | zero =>
      rw [hrec, parentsOf_zero g hwf (by omega), genStep]
      simp
    | succ j =>
      have hne := (hwf (j + 1) hi).2 (Nat.succ_pos j)
      rw [hrec, genStep, if_neg (by simpa using hne)]
      simp

/-- Witness for C2 on the diamond-plus-branch DAG at the merge commit F
(position 6, parents B and E). -/
theorem C2_witness :
    (parentsOf example8 6 ≠ [] →
      generationNumber example8 6
        = ((parentsOf example8 6).map (generationNumber example8)).foldl Nat.max 0 + 1)
    ∧ (generationNumber example8 6 = 0 ↔ (6 : Nat) = 0) :=
  C2_generation_number example8 (by decide) 6 (by decide)

theorem parentsOf_append_lt (g h : Dag) (i : Nat) (hi : i < g.length) :
    parentsOf (g ++ h) i = parentsOf g i := by
  unfold parentsOf
  exact List.getD_append g h [] i hi

theorem crissCross_length : ∀ D, (crissCross D).length = 1 + 2 * D
  | 0 => by simp [crissCross]
  | 1 => by simp [crissCross]
  | n + 2 => by
    rw [crissCross, List.length_append, crissCross_length (n + 1)]
    simp
    omega

theorem crissCross_wf : ∀ D, WfDag (crissCross D)
  | 0 => by decide
  | 1 => by decide
  | n + 2 => by
    have ih := crissCross_wf (n + 1)
    have hlen : (crissCross (n + 1)).length = 2 * n + 3 := by
      rw [crissCross_length]; omega
    intro i hi
    rw [crissCross, List.length_append, hlen] at hi
    rw [crissCross]
    by_cases hio : i < 2 * n + 3
    · rw [parentsOf_append_lt _ _ i (by omega)]
      exact ih i (by omega)
    · have hpar : parentsOf (crissCross (n + 1) ++ [[2 * n + 1, 2 * n + 2], [2 * n + 1, 2 * n + 2]]) i
          = [2 * n + 1, 2 * n + 2] := by
        unfold parentsOf
        rw [List.getD_append_right _ _ _ _ (by omega)]
        have : i - (crissCross (n + 1)).length = 0 ∨ i - (crissCross (n + 1)).length = 1 := by
          simp at hi ⊢
          omega
        rcases this with h | h <;> rw [h] <;> rfl
      rw [hpar]
      constructor
      · intro p hp
        simp at hp
        rcases hp with h | h <;> omega
      · intro _
        simp

theorem tableAux_append (f : List Nat → List Nat → Nat) (l₁ l₂ : List (List Nat)) (acc : List Nat) :
    tableAux f (l₁ ++ l₂) acc = tableAux f l₂ (tableAux f l₁ acc) := by
  induction l₁ generalizing acc with
  | nil => rfl
  | cons ps rest ih => rw [List.cons_append, tableAux, tableAux, ih]

theorem buildTable_length (f : List Nat → List Nat → Nat) (g : Dag) :
    (buildTable f g).length = g.length := by
  simpa using tableAux_length f g []

theorem buildTable_append_two (f : List Nat → List Nat → Nat)
    (hf : ∀ a₁ a₂ ps, (∀ p ∈ ps, a₁.getD p 0 = a₂.getD p 0) → f a₁ ps = f a₂ ps)
    (g : Dag) (ps : List Nat) (hps : ∀ p ∈ ps, p < g.length) :
    buildTable f (g ++ [ps, ps])
      = buildTable f g ++ [f (buildTable f g) ps, f (buildTable f g) ps] := by
  unfold buildTable
  rw [tableAux_append, tableAux, tableAux, tableAux]
  have hlen : (tableAux f g []).length = g.length := by simpa using tableAux_length f g []
  have hsecond : f (tableAux f g [] ++ [f (tableAux f g []) ps]) ps = f (tableAux f g []) ps := by
    apply hf
    intro p hp
    exact List.getD_append _ _ 0 p (by rw [hlen]; exact hps p hp)
  rw [hsecond]
  simp

/-- Closed form of the generation table of a criss-cross DAG: `[0]` followed
by two copies of each generation number `1..D`. -/
def gcTable : Nat → List Nat
  | 0 => [0]
  | n + 1 => gcTable n ++ [n + 1, n + 1]

theorem gcTable_length : ∀ n, (gcTable n).length = 2 * n + 1
  | 0 => rfl
  | n + 1 => by
    rw [gcTable, List.length_append, gcTable_length n]
    simp
    omega

theorem gcTable_getD_last (n : Nat) :
    (gcTable (n + 1)).getD (2 * n + 1) 0 = n + 1
      ∧ (gcTable (n + 1)).getD (2 * n + 2) 0 = n + 1 := by
  have hlen := gcTable_length n
  constructor
  · rw [gcTable, List.getD_append_right _ _ _ _ (by omega)]
    have : 2 * n + 1 - (gcTable n).length = 0 := by omega
    rw [this]
    rfl
  · rw [gcTable, List.getD_append_right _ _ _ _ (by omega)]
    have : 2 * n + 2 - (gcTable n).length = 1 := by omega
    rw [this]
    rfl

theorem genTable_crissCross : ∀ D, genTable (crissCross D) = gcTable D
  | 0 => by decide
  | 1 => by decide
  | n + 2 => by
    have ih := genTable_crissCross (n + 1)
    have hlen : (crissCross (n + 1)).length = 2 * n + 3 := by
      rw [crissCross_length]; omega
    have hx : genStep (gcTable (n + 1)) [2 * n + 1, 2 * n + 2] = n + 2 := by
      unfold genStep
      rw [if_neg (by simp)]
      have h1 := (gcTable_getD_last n).1
      have h2 := (gcTable_getD_last n).2
      simp only [List.map_cons, List.map_nil, List.foldl_cons, List.foldl_nil, h1, h2]
      have hm1 : Nat.max 0 (n + 1) = n + 1 := Nat.max_eq_right (Nat.zero_le _)
      have hm2 : Nat.max (n + 1) (n + 1) = n + 1 := Nat.max_self _
      rw [hm1, hm2]
    have ih' : buildTable genStep (crissCross (n + 1)) = gcTable (n + 1) := ih
    rw [crissCross]
    unfold genTable
    rw [buildTable_append_two genStep genStep_congr _ _ (by intro p hp; simp at hp; omega)]
    rw [ih', hx]
    rfl

theorem maxGen_crissCross (D : Nat) : maxGen (crissCross D) = D := by
  unfold maxGen
  rw [genTable_crissCross]
  induction D with
  | zero => rfl
  | succ n ih =>
    rw [gcTable, List.foldl_append, ih]
    show Nat.max (Nat.max n (n + 1)) (n + 1) = n + 1
    have hm1 : Nat.max n (n + 1) = n + 1 := Nat.max_eq_right (Nat.le_succ n)
    have hm2 : Nat.max (n + 1) (n + 1) = n + 1 := Nat.max_self _
    rw [hm1, hm2]

/-- Reachability only descends: an ancestor's position never exceeds the
descendant's. -/
theorem reaches_le (g : Dag) (hwf : WfDag g) {a b : Nat} (h : Reaches g a b) :
    b < g.length → a ≤ b := by
  induction h with
  | refl => exact fun _ => Nat.le_refl _
  | @step p b' hp hr ih =>
    intro hb
    have hpb : p < b' := (hwf b' hb).1 p hp
    have := ih (by omega)
    omega

/-- Reachability is preserved when later segments are appended to the DAG. -/
theorem reaches_append (g h : Dag) (hwf : WfDag g) {a b : Nat} (hr : Reaches g a b) :
    b < g.length → Reaches (g ++ h) a b := by
  induction hr with
  | refl => exact fun _ => Reaches.refl _
  | @step p b' hp hr ih =>
    intro hb
    have hpb : p < b' := (hwf b' hb).1 p hp
    refine Reaches.step ?_ (ih (by omega))
    rw [parentsOf_append_lt g h b' hb]
    exact hp

/-- Step-counted reachability: `ReachesIn g k a b` holds when `a` is reachable
from `b` by exactly `k` parent edges. -/
inductive ReachesIn (g : Dag) : Nat → Nat → Nat → Prop
  | refl (b : Nat) : ReachesIn g 0 b b
  | step {k a p b : Nat} : p ∈ parentsOf g b → ReachesIn g k a p → ReachesIn g (k + 1) a b

theorem reachesIn_reaches (g : Dag) {k a b : Nat} (h : ReachesIn g k a b) :
    Reaches g a b := by
  induction h with
  | refl => exact Reaches.refl _
  | step hp _ ih => exact Reaches.step hp ih

theorem reachesIn_append (g h : Dag) (hwf : WfDag g) {k a b : Nat}
    (hr : ReachesIn g k a b) : b < g.length → ReachesIn (g ++ h) k a b := by
  induction hr with
  | refl => exact fun _ => ReachesIn.refl _
  | @step k' a' p b' hp hr ih =>
    intro hb
    have hpb : p < b' := (hwf b' hb).1 p hp
    refine ReachesIn.step ?_ (ih (by omega))
    rw [parentsOf_append_lt g h b' hb]
    exact hp

/-- In a criss-cross DAG of depth `D`, the top-left commit (position
`2D - 1`) reaches every position below it within at most `D` parent steps. -/
theorem crissCross_reachesIn_top : ∀ D, 1 ≤ D → ∀ a, a < 2 * D →
    ∃ k, k ≤ D ∧ ReachesIn (crissCross D) k a (2 * D - 1)
  | 0, h => by omega
  | 1, _ => by
    intro a ha
    match a, ha with
    | 0, _ =>
      exact ⟨1, Nat.le_refl 1, ReachesIn.step (by decide) (ReachesIn.refl 0)⟩
    | 1, _ =>
      exact ⟨0, by omega, ReachesIn.refl 1⟩
  | n + 2, _ => by
    intro a ha
    have hwf1 := crissCross_wf (n + 1)
    have hlen : (crissCross (n + 1)).length = 2 * n + 3 := by
      rw [crissCross_length]; omega
    have htop : 2 * (n + 2) - 1 = 2 * n + 3 := by omega
    have hpar : parentsOf (crissCross (n + 2)) (2 * n + 3) = [2 * n + 1, 2 * n + 2] := by
      rw [crissCross]
      unfold parentsOf
      rw [List.getD_append_right _ _ _ _ (by omega)]
      have : 2 * n + 3 - (crissCross (n + 1)).length = 0 := by omega
      rw [this]
      rfl
    rw [htop]
    by_cases h1 : a = 2 * n + 3
    · exact ⟨0, by omega, h1 ▸ ReachesIn.refl _⟩
    by_cases h2 : a = 2 * n + 2
    · refine ⟨1, by omega, ReachesIn.step (p := 2 * n + 2) ?_ (h2 ▸ ReachesIn.refl _)⟩
      rw [hpar]
      simp
    by_cases h3 : a = 2 * n + 1
    · refine ⟨1, by omega, ReachesIn.step (p := 2 * n + 1) ?_ (h3 ▸ ReachesIn.refl _)⟩
      rw [hpar]
      simp
    · have halt : a < 2 * (n + 1) := by omega
      obtain ⟨k, hk, hr⟩ := crissCross_reachesIn_top (n + 1) (by omega) a halt
      have htop' : 2 * (n + 1) - 1 = 2 * n + 1 := by omega
      rw [htop'] at hr
      have hr' : ReachesIn (crissCross (n + 2)) k a (2 * n + 1) := by
        rw [crissCross]
        exact reachesIn_append _ _ hwf1 hr (by omega)
      refine ⟨k + 1, by omega, ReachesIn.step (p := 2 * n + 1) ?_ hr'⟩
      rw [hpar]
      simp

/-- A shallower criss-cross DAG is a prefix of a deeper one. -/
theorem crissCross_prefix_of_le : ∀ (D γ : Nat), 1 ≤ γ → γ ≤ D →
    ∃ t, crissCross D = crissCross γ ++ t := by
  intro D
  induction D with
  | zero => intro γ h1 h2; omega
  | succ n ih =>
    intro γ h1 h2
    by_cases heq : γ = n + 1
    · exact ⟨[], by rw [heq]; simp⟩
    · obtain ⟨t, ht⟩ := ih γ h1 (by omega)
      cases n with
      | zero => omega
      | succ m =>
        refine ⟨t ++ [[2 * m + 1, 2 * m + 2], [2 * m + 1, 2 * m + 2]], ?_⟩
        rw [crissCross, ht, List.append_assoc]

/-- In a criss-cross DAG of depth `D ≥ γ ≥ 1`, the positions reachable from
the generation-`γ-1` left commit (position `2γ - 1`) are exactly the
positions below `2γ`. -/
theorem crissCross_reaches_iff (D γ : Nat) (h1 : 1 ≤ γ) (h2 : γ ≤ D) (a : Nat) :
    Reaches (crissCross D) a (2 * γ - 1) ↔ a < 2 * γ := by
  constructor
  · intro h
    have := reaches_le _ (crissCross_wf D) h (by rw [crissCross_length]; omega)
    omega
  · intro ha
    obtain ⟨k, _, hr⟩ := crissCross_reachesIn_top γ h1 a ha
    have hr' := reachesIn_reaches _ hr
    obtain ⟨t, ht⟩ := crissCross_prefix_of_le D γ h1 h2
    rw [ht]
    exact reaches_append _ _ (crissCross_wf γ) hr' (by rw [crissCross_length]; omega)

/-- The walk emits positions in strictly decreasing order: each position is
visited at most once (deduplication by position). -/
theorem walkGo_pairwise (g : Dag) : ∀ (n : Nat) (pending : List Nat),
    (walkGo g n pending).Pairwise (· > ·) := by
  intro n
  induction n with
  | zero => intro pending; simp [walkGo]
  | succ n ih =>
    intro pending
    rw [walkGo]
    by_cases hc : n ∈ pending
    · rw [if_pos hc, List.pairwise_cons]
      exact ⟨fun m hm => walkGo_mem_lt g n _ m hm, ih _⟩
    · rw [if_neg hc]
      exact ih _

theorem ancestorsOf_nodup (g : Dag) (heads : List Nat) : (ancestorsOf g heads).Nodup :=
  List.Pairwise.imp (fun h => ne_of_gt h) (walkGo_pairwise g _ heads)

theorem length_eq_of_mem_iff_lt (l : List Nat) (n : Nat) (hnd : l.Nodup)
    (hmem : ∀ a, a ∈ l ↔ a < n) : l.length = n := by
  have h1 : l.toFinset = Finset.range n := by
    ext a
    rw [List.mem_toFinset, Finset.mem_range]
    exact hmem a
  rw [← List.toFinset_card_of_nodup hnd, h1, Finset.card_range]

theorem length_eq_two_of_mem_iff (l : List Nat) (x y : Nat) (hxy : x ≠ y) (hnd : l.Nodup)
    (hmem : ∀ a, a ∈ l ↔ (a = x ∨ a = y)) : l.length = 2 := by
  have h1 : l.toFinset = {x, y} := by
    ext a
    rw [List.mem_toFinset]
    simp [hmem a]
  rw [← List.toFinset_card_of_nodup hnd, h1]
  rw [Finset.card_insert_of_not_mem (by simp [hxy]), Finset.card_singleton]

/-- Positions reachable from the generation-`γ-1` left commit of a criss-cross
DAG are exactly those below `2γ`. -/
theorem crissCross_mem_ancestors (D γ : Nat) (h1 : 1 ≤ γ) (h2 : γ ≤ D) (a : Nat) :
    a ∈ ancestorsOf (crissCross D) [2 * γ - 1] ↔ a < 2 * γ := by
  rw [mem_ancestorsOf_iff _ (crissCross_wf D) _
    (by intro b hb; simp at hb; subst hb; rw [crissCross_length]; omega)]
  constructor
  · rintro ⟨b, hb, hr⟩
    simp at hb
    subst hb
    exact (crissCross_reaches_iff D γ h1 h2 a).mp hr
  · intro ha
    exact ⟨2 * γ - 1, by simp, (crissCross_reaches_iff D γ h1 h2 a).mpr ha⟩

theorem crissCross_ancestors_length (D γ : Nat) (h1 : 1 ≤ γ) (h2 : γ ≤ D) :
    (ancestorsOf (crissCross D) [2 * γ - 1]).length = 2 * γ :=
  length_eq_of_mem_iff_lt _ _ (ancestorsOf_nodup _ _) (crissCross_mem_ancestors D γ h1 h2)

/-- Modelled from the spec: range evaluation `roots..heads` as exercised by
`count_revs` in the criss-cross test — the ancestors of `heads` that are not
ancestors of `roots`. -/
def rangeRevs (g : Dag) (heads roots : List Nat) : List Nat :=
  (ancestorsOf g heads).filter (fun a => decide (a ∉ ancestorsOf g roots))

theorem crissCross_range_length (D : Nat) (hD : 2 ≤ D) :
    (rangeRevs (crissCross D) [2 * D - 1] [2 * D - 3]).length = 2 := by
  apply length_eq_two_of_mem_iff _ (2 * D - 2) (2 * D - 1) (by omega)
  · exact List.Nodup.filter _ (ancestorsOf_nodup _ _)
  · intro a
    unfold rangeRevs
    rw [List.mem_filter, decide_eq_true_iff]
    have hm1 := crissCross_mem_ancestors D D (by omega) (Nat.le_refl D) a
    have hm2 := crissCross_mem_ancestors D (D - 1) (by omega) (by omega) a
    have e3 : 2 * (D - 1) - 1 = 2 * D - 3 := by omega
    have e4 : 2 * (D - 1) = 2 * D - 2 := by omega
    rw [e3, e4] at hm2
    rw [hm1, hm2]
    omega

/-- One parent step of the generation-bounded frontier, deduplicated: the
level never holds more than `num_commits` distinct states. -/
def stepFrontier (g : Dag) (f : List Nat) : List Nat := (f.map (parentsOf g)).flatten.dedup

/-- Modelled from the spec: the generation-range walk of §4.4, which
deduplicates by `(position, remaining-generation-budget)` — level `k` of the
breadth-first sweep holds exactly the positions reachable in `k` parent
steps, each level deduplicated, so total work is bounded by
`num_commits × budget` rather than the number of parent-paths. -/
def boundedAncestors (g : Dag) (heads : List Nat) : Nat → List Nat
  | 0 => []
  | b + 1 => (heads ++ boundedAncestors g (stepFrontier g heads) b).dedup

theorem mem_stepFrontier (g : Dag) (f : List Nat) (a : Nat) :
    a ∈ stepFrontier g f ↔ ∃ s ∈ f, a ∈ parentsOf g s := by
  simp [stepFrontier]

theorem mem_boundedAncestors (g : Dag) : ∀ (b : Nat) (heads : List Nat) (a : Nat),
    a ∈ boundedAncestors g heads b ↔ ∃ s ∈ heads, ∃ k, k < b ∧ ReachesIn g k a s := by
  intro b
  induction b with
  | zero => intro heads a; simp [boundedAncestors]
  | succ b ih =>
    intro heads a
    rw [boundedAncestors, List.mem_dedup, List.mem_append]
    constructor
    · rintro (h | h)
      · exact ⟨a, h, 0, by omega, ReachesIn.refl a⟩
      · rw [ih] at h
        obtain ⟨s', hs', k, hk, hr⟩ := h
        rw [mem_stepFrontier] at hs'
        obtain ⟨s, hs, hps⟩ := hs'
        exact ⟨s, hs, k + 1, by omega, ReachesIn.step hps hr⟩
    · rintro ⟨s, hs, k, hk, hr⟩
      cases hr with
      | refl => exact Or.inl hs
      | step hp hr' =>
        rename_i k' p
        refine Or.inr ?_
        rw [ih]
        refine ⟨p, ?_, k', by omega, hr'⟩
        rw [mem_stepFrontier]
        exact ⟨s, hs, hp⟩

theorem boundedAncestors_nodup (g : Dag) : ∀ (b : Nat) (heads : List Nat),
    (boundedAncestors g heads b).Nodup := by
  intro b heads
  cases b with
  | zero => exact List.nodup_nil
  | succ b => exact List.nodup_dedup _

theorem crissCross_mem_bounded (D : Nat) (hD : 1 ≤ D) (a : Nat) :
    a ∈ boundedAncestors (crissCross D) [2 * D - 1] (D + 1) ↔ a < 2 * D := by
  rw [mem_boundedAncestors]
  constructor
  · rintro ⟨s, hs, k, hk, hr⟩
    simp at hs
    subst hs
    have := reaches_le _ (crissCross_wf D) (reachesIn_reaches _ hr)
      (by rw [crissCross_length]; omega)
    omega
  · intro ha
    obtain ⟨k, hk, hr⟩ := crissCross_reachesIn_top D hD a ha
    exact ⟨2 * D - 1, by simp, k, by omega, hr⟩

theorem crissCross_bounded_length (D : Nat) (hD : 1 ≤ D) :
    (boundedAncestors (crissCross D) [2 * D - 1] (D + 1)).length = 2 * D :=
  length_eq_of_mem_iff_lt _ _ (boundedAncestors_nodup _ _ _) (crissCross_mem_bounded D hD)

/-- Closed form of the path-count table of a criss-cross DAG: the two
generation-`k` commits each have `2^k` parent-paths to the root. -/
def pcTable : Nat → List Nat
  | 0 => [1]
  | n + 1 => pcTable n ++ [2 ^ n, 2 ^ n]

theorem pcTable_length : ∀ n, (pcTable n).length = 2 * n + 1
  | 0 => rfl
  | n + 1 => by
    rw [pcTable, List.length_append, pcTable_length n]
    simp
    omega

theorem pcTable_getD_last (n : Nat) :
    (pcTable (n + 1)).getD (2 * n + 1) 0 = 2 ^ n
      ∧ (pcTable (n + 1)).getD (2 * n + 2) 0 = 2 ^ n := by
  have hlen := pcTable_length n
  constructor
  · rw [pcTable, List.getD_append_right _ _ _ _ (by omega)]
    have : 2 * n + 1 - (pcTable n).length = 0 := by omega
    rw [this]
    rfl
  · rw [pcTable, List.getD_append_right _ _ _ _ (by omega)]
    have : 2 * n + 2 - (pcTable n).length = 1 := by omega
    rw [this]
    rfl

theorem pathTable_crissCross : ∀ D, pathTable (crissCross D) = pcTable D
  | 0 => by decide
  | 1 => by decide
  | n + 2 => by
    have ih := pathTable_crissCross (n + 1)
    have hx : pathStep (pcTable (n + 1)) [2 * n + 1, 2 * n + 2] = 2 ^ (n + 1) := by
      unfold pathStep
      rw [if_neg (by simp)]
      have h1 := (pcTable_getD_last n).1
      have h2 := (pcTable_getD_last n).2
      simp only [List.map_cons, List.map_nil, List.foldl_cons, List.foldl_nil, h1, h2]
      rw [Nat.pow_succ]
      omega
    have ih' : buildTable pathStep (crissCross (n + 1)) = pcTable (n + 1) := ih
    rw [crissCross]
    unfold pathTable
    rw [buildTable_append_two pathStep pathStep_congr _ _
      (by intro p hp; simp at hp; rw [crissCross_length]; omega)]
    rw [ih', hx]
    rfl

theorem pathTable_crissCross_top (D : Nat) (hD : 1 ≤ D) :
    (pathTable (crissCross D)).getD (2 * D - 1) 0 = 2 ^ (D - 1) := by
  obtain ⟨n, rfl⟩ : ∃ n, D = n + 1 := ⟨D - 1, by omega⟩
  rw [pathTable_crissCross]
  have e : 2 * (n + 1) - 1 = 2 * n + 1 := by omega
  rw [e, (pcTable_getD_last n).1]
  congr 1

theorem numMerges_crissCross : ∀ D, 1 ≤ D → numMerges (crissCross D) = 2 * (D - 1)
  | 0, h => by omega
  | 1, _ => by decide
  | n + 2, _ => by
    have ih := numMerges_crissCross (n + 1) (by omega)
    rw [crissCross]
    unfold numMerges at ih ⊢
    rw [List.filter_append, List.length_append, ih]
    have hf : (([[2 * n + 1, 2 * n + 2], [2 * n + 1, 2 * n + 2]] : List (List Nat)).filter
        (fun ps => 2 ≤ ps.length)).length = 2 := rfl
    rw [hf]
    omega

theorem numMerges_chain (n : Nat) : numMerges (chainDag n) = 0 := by
  unfold numMerges
  rw [List.length_eq_zero, List.filter_eq_nil_iff]
  intro ps hps
  unfold chainDag at hps
  rcases List.mem_cons.mp hps with h | h
  · subst h
    simp
  · obtain ⟨i, _, rfl⟩ := List.mem_map.mp h
    simp

/-- C3: a criss-cross DAG of depth `D` indexes exactly `1 + 2D` commits with
maximum generation number `D`; the deduplicating RevWalk from the top-left
commit emits each of its `2D` ancestors exactly once (duplicate-free output,
linear in `D`) even though `2^(D-1)` distinct parent-paths exist — so the
position-deduplicating walk and the budget-deduplicating generation-range
walk, whose level-by-level frontiers are deduplicated and hence bounded by
`num_commits`, terminate after polynomially many visits, not `2^D`; the
`roots..heads` range between the two topmost generations holds exactly 2
commits, and the generation-bounded walk with budget `D+1` visits exactly the
same `2D` ancestors. -/
theorem C3_criss_cross (D : Nat) (hD : 1 ≤ D) :
    numCommits (crissCross D) = 1 + 2 * D
    ∧ maxGen (crissCross D) = D
    ∧ (ancestorsOf (crissCross D) [2 * D - 1]).Nodup
    ∧ (ancestorsOf (crissCross D) [2 * D - 1]).length = 2 * D
    ∧ (pathTable (crissCross D)).getD (2 * D - 1) 0 = 2 ^ (D - 1)
    ∧ (2 ≤ D → (rangeRevs (crissCross D) [2 * D - 1] [2 * D - 3]).length = 2)
    ∧ (boundedAncestors (crissCross D) [2 * D - 1] (D + 1)).length = 2 * D :=
  ⟨crissCross_length D, maxGen_crissCross D, ancestorsOf_nodup _ _,
    crissCross_ancestors_length D D hD (Nat.le_refl D), pathTable_crissCross_top D hD,
    fun h2 => crissCross_range_length D h2, crissCross_bounded_length D hD⟩

/-- Witness for C3 at depth 3. -/
theorem C3_witness :
    numCommits (crissCross 3) = 1 + 2 * 3
    ∧ maxGen (crissCross 3) = 3
    ∧ (ancestorsOf (crissCross 3) [2 * 3 - 1]).Nodup
    ∧ (ancestorsOf (crissCross 3) [2 * 3 - 1]).length = 2 * 3
    ∧ (pathTable (crissCross 3)).getD (2 * 3 - 1) 0 = 2 ^ (3 - 1)
    ∧ (2 ≤ 3 → (rangeRevs (crissCross 3) [2 * 3 - 1] [2 * 3 - 3]).length = 2)
    ∧ (boundedAncestors (crissCross 3) [2 * 3 - 1] (3 + 1)).length = 2 * 3 :=
  C3_criss_cross 3 (by decide)

/-- C10: `stats().num_merges` is by construction the number of indexed
commits with two or more parents; it is 0 on a linear chain, 1 on the
diamond-plus-branch example (only commit F merges), and `2*(D-1)` on a
criss-cross DAG of depth `D` (the two generation-0 commits are not
merges). -/
theorem C10_num_merges (n D : Nat) (hD : 1 ≤ D) :
    numMerges (chainDag n) = 0
    ∧ numMerges example8 = 1
    ∧ numMerges (crissCross D) = 2 * (D - 1) :=
  ⟨numMerges_chain n, by decide, numMerges_crissCross D hD⟩

/-- Witness for C10 with a 5-commit chain and depth-3 criss-cross. -/
theorem C10_witness :
    numMerges (chainDag 5) = 0
    ∧ numMerges example8 = 1
    ∧ numMerges (crissCross 3) = 2 * (3 - 1) :=
  C10_num_merges 5 3 (by decide)

/-- Modelled from the spec: the Level Manager of §4.3.  Level sizes are kept
newest-first; a freshly flushed segment of `n` commits is carry-merged into
the next-older level until it is (strictly less than half) smaller than the
level below — the merge threshold that reproduces every level layout pinned
by `test_index_commits_incremental_squashed` — so sizes oldest-to-newest
remain non-increasing. -/
def addSegment : List Nat → Nat → List Nat
  | [], n => [n]
  | l :: rest, n => if 2 * n < l then n :: l :: rest else addSegment rest (n + l)

/-- One `commit()` of a transaction that added `n` commits; an empty
transaction writes no new segment. -/
def commitTx (levels : List Nat) (n : Nat) : List Nat :=
  if n = 0 then levels else addSegment levels n

/-- Total commits over all levels (`num_commits()` of the level state). -/
def sumLevels (levels : List Nat) : Nat := levels.sum

/-- Replay a sequence of transaction sizes on a fresh index (root only). -/
def buildLevels (txs : List Nat) : List Nat := txs.foldl commitTx [1]

theorem addSegment_sorted (levels : List Nat) (n : Nat)
    (h : levels.Pairwise (· ≤ ·)) : (addSegment levels n).Pairwise (· ≤ ·) := by
  induction levels generalizing n with
  | nil => simp [addSegment]
  | cons l rest ih =>
    rw [addSegment]
    obtain ⟨hl, hrest⟩ := List.pairwise_cons.mp h
    by_cases hc : 2 * n < l
    · rw [if_pos hc, List.pairwise_cons]
      refine ⟨?_, h⟩
      intro b hb
      rcases List.mem_cons.mp hb with hb | hb
      · omega
      · have := hl b hb
        omega
    · rw [if_neg hc]
      exact ih (n + l) hrest

theorem addSegment_sum (levels : List Nat) (n : Nat) :
    sumLevels (addSegment levels n) = n + sumLevels levels := by
  induction levels generalizing n with
  | nil => simp [addSegment, sumLevels]
  | cons l rest ih =>
    rw [addSegment]
    by_cases hc : 2 * n < l
    · rw [if_pos hc]
      simp [sumLevels]
    · rw [if_neg hc, ih]
      simp [sumLevels]
      omega

theorem commitTx_sorted (levels : List Nat) (n : Nat)
    (h : levels.Pairwise (· ≤ ·)) : (commitTx levels n).Pairwise (· ≤ ·) := by
  unfold commitTx
  by_cases hn : n = 0
  · rw [if_pos hn]; exact h
  · rw [if_neg hn]; exact addSegment_sorted levels n h

theorem commitTx_sum (levels : List Nat) (n : Nat) :
    sumLevels (commitTx levels n) = sumLevels levels + n := by
  unfold commitTx
  by_cases hn : n = 0
  · rw [if_pos hn, hn]
    omega
  · rw [if_neg hn, addSegment_sum]
    omega

theorem singles_sum (N : Nat) :
    sumLevels ((fun L => commitTx L 1)^[N] [1]) = N + 1 := by
  induction N with
  | zero => rfl
  | succ N ih =>
    rw [Function.iterate_succ_apply', commitTx_sum, ih]

/-- C4: after every `commit()` the level sizes, oldest to newest, stay
non-increasing (newest-first they are `≤`-sorted), and `num_commits()`
depends only on how many commits were added, not on the level layout:
it grows by exactly the transaction's size, and after `N` sequential
single-commit transactions on a fresh index it is `N + 1`. -/
theorem C4_level_invariant (levels : List Nat) (n : Nat)
    (h : levels.Pairwise (· ≤ ·)) (N : Nat) :
    (commitTx levels n).Pairwise (· ≤ ·)
    ∧ ((commitTx levels n).reverse).Pairwise (· ≥ ·)
    ∧ sumLevels (commitTx levels n) = sumLevels levels + n
    ∧ sumLevels ((fun L => commitTx L 1)^[N] [1]) = N + 1 := by
  refine ⟨commitTx_sorted levels n h, ?_, commitTx_sum levels n, singles_sum N⟩
  rw [List.pairwise_reverse]
  exact commitTx_sorted levels n h

/-- Witness for C4 on a sorted two-level state. -/
theorem C4_witness :
    (commitTx [3, 9] 2).Pairwise (· ≤ ·)
    ∧ ((commitTx [3, 9] 2).reverse).Pairwise (· ≥ ·)
    ∧ sumLevels (commitTx [3, 9] 2) = sumLevels [3, 9] + 2
    ∧ sumLevels ((fun L => commitTx L 1)^[5] [1]) = 5 + 1 :=
  C4_level_invariant [3, 9] 2 (by decide) 5

/-- The model reproduces, oldest level first, every layout asserted by
`test_index_commits_incremental_squashed`. -/
theorem levelLayouts_match_tests :
    (buildLevels [1]).reverse = [2]
    ∧ (buildLevels [1, 1]).reverse = [3]
    ∧ (buildLevels [2]).reverse = [3]
    ∧ (buildLevels [100]).reverse = [101]
    ∧ (buildLevels [1, 2, 4, 8, 16, 32]).reverse = [64]
    ∧ (buildLevels [32, 16, 8, 4, 2]).reverse = [57, 6]
    ∧ (buildLevels [30, 15, 7, 3, 1]).reverse = [31, 15, 7, 3, 1]
    ∧ (buildLevels [10, 10, 10, 10, 10, 10, 10, 10, 10]).reverse = [71, 20] := by
  refine ⟨rfl, rfl, rfl, ?_, rfl, rfl, rfl, rfl⟩
  decide

/-- An index entry for the physical-layout model: its commit id and its
parent positions. -/
abbrev CEntry := Nat × List Nat

/-- Modelled from the spec: the physical layout of §3/§4.1 — a chain of
immutable segments, newest-first, each an ordered slice of entries; merging
on commit concatenates adjacent segments (compaction "produces new Segments,
never in-place edits") with the same carry threshold as the level sizes. -/
def addSegmentC {α : Type} : List (List α) → List α → List (List α)
  | [], s => [s]
  | t :: rest, s =>
    if 2 * s.length < t.length then s :: t :: rest else addSegmentC rest (t ++ s)

/-- One `commit()`: flush the transaction's new entries as a fresh segment
and restore the level invariant; an empty transaction writes nothing. -/
def commitTxC {α : Type} (segs : List (List α)) (s : List α) : List (List α) :=
  if s.isEmpty then segs else addSegmentC segs s

/-- The logical entry sequence of a segment chain, oldest entry first — the
view by which all queries address entries by global position. -/
def flattenIndex {α : Type} (segs : List (List α)) : List α := segs.reverse.flatten

/-- Incremental build: replay each transaction's added entries through the
segment store (`remove_head` arguments, the second components, never touch
stored entries — removal is logical, from visible heads only). -/
def buildIncremental (init : List CEntry) (txs : List (List CEntry × List Nat)) :
    List (List CEntry) :=
  txs.foldl (fun segs tx => commitTxC segs tx.1) [init]

/-- Modelled from the spec: Recovery (§4.7) — after segment files are deleted
or corrupted, `build_index_at_operation` starts empty and re-adds every
historically visible commit, including since-hidden ones, in operation
order, producing one fresh segment. -/
def buildRecovered (init : List CEntry) (txs : List (List CEntry × List Nat)) :
    List (List CEntry) :=
  [init ++ (txs.map Prod.fst).flatten]

theorem addSegmentC_flatten {α : Type} (segs : List (List α)) (s : List α) :
    flattenIndex (addSegmentC segs s) = flattenIndex segs ++ s := by
  induction segs generalizing s with
  | nil => simp [addSegmentC, flattenIndex]
  | cons t rest ih =>
    rw [addSegmentC]
    by_cases hc : 2 * s.length < t.length
    · rw [if_pos hc]
      simp [flattenIndex]
    · rw [if_neg hc, ih]
      simp [flattenIndex]

theorem commitTxC_flatten {α : Type} (segs : List (List α)) (s : List α) :
    flattenIndex (commitTxC segs s) = flattenIndex segs ++ s := by
  unfold commitTxC
  by_cases he : s.isEmpty
  · rw [if_pos he, List.isEmpty_iff.mp he]
    simp
  · rw [if_neg he]
    exact addSegmentC_flatten segs s

theorem buildIncremental_flatten (init : List CEntry) (txs : List (List CEntry × List Nat)) :
    flattenIndex (buildIncremental init txs) = init ++ (txs.map Prod.fst).flatten := by
  suffices h : ∀ (txs : List (List CEntry × List Nat)) (segs : List (List CEntry)),
      flattenIndex (txs.foldl (fun segs tx => commitTxC segs tx.1) segs)
        = flattenIndex segs ++ (txs.map Prod.fst).flatten by
    rw [buildIncremental, h txs [init]]
    simp [flattenIndex]
  intro txs
  induction txs with
  | nil => intro segs; simp
  | cons tx rest ih =>
    intro segs
    rw [List.foldl_cons, ih, commitTxC_flatten]
    simp

/-- C5: for any fixed transaction sequence (entries added per transaction
plus `remove_head` calls, which are logical only), the index rebuilt by
Recovery from scratch holds exactly the same entry sequence as the
incrementally grown, carry-merged segment chain — hence identical generation
numbers, `is_ancestor` answers, `has_id` answers, and `stats()` counts
(`num_commits`, `num_merges`, `max_generation_number`), with commits hidden
by earlier `remove_head` still present. -/
theorem C5_recovery_equivalence (init : List CEntry) (txs : List (List CEntry × List Nat)) :
    flattenIndex (buildIncremental init txs) = flattenIndex (buildRecovered init txs)
    ∧ genTable ((flattenIndex (buildIncremental init txs)).map Prod.snd)
        = genTable ((flattenIndex (buildRecovered init txs)).map Prod.snd)
    ∧ (∀ a b, isAncestor ((flattenIndex (buildIncremental init txs)).map Prod.snd) a b
        = isAncestor ((flattenIndex (buildRecovered init txs)).map Prod.snd) a b)
    ∧ (∀ c, ((flattenIndex (buildIncremental init txs)).map Prod.fst).contains c
        = ((flattenIndex (buildRecovered init txs)).map Prod.fst).contains c)
    ∧ numCommits ((flattenIndex (buildIncremental init txs)).map Prod.snd)
        = numCommits ((flattenIndex (buildRecovered init txs)).map Prod.snd)
    ∧ numMerges ((flattenIndex (buildIncremental init txs)).map Prod.snd)
        = numMerges ((flattenIndex (buildRecovered init txs)).map Prod.snd)
    ∧ maxGen ((flattenIndex (buildIncremental init txs)).map Prod.snd)
        = maxGen ((flattenIndex (buildRecovered init txs)).map Prod.snd) := by
  have hflat : flattenIndex (buildIncremental init txs)
      = flattenIndex (buildRecovered init txs) := by
    rw [buildIncremental_flatten, buildRecovered, flattenIndex]
    simp
  refine ⟨hflat, ?_, ?_, ?_, ?_, ?_, ?_⟩ <;> rw [hflat] <;> simp

/-- A full index entry: commit id, change id (as a list of hex digits), and
parent positions (spec §3 `IndexEntry`; the dense position is the list
index). -/
structure Entry where
  cid : Nat
  chid : List Nat
  parents : List Nat
deriving DecidableEq

/-- `has_id`: whether a commit id is indexed. -/
def hasId (entries : List Entry) (c : Nat) : Bool := entries.any (fun e => e.cid == c)

/-- Position of an indexed commit id. -/
def posOfId (entries : List Entry) (c : Nat) : Nat :=
  entries.findIdx (fun e => e.cid == c)

/-- Modelled from the spec: `add_commit` of §4.3 — parents must already be
indexed; "is a no-op if the id is already present"; otherwise a new entry is
appended with parent positions resolved by id. -/
def addCommit (entries : List Entry) (c : Nat) (ch : List Nat) (parentIds : List Nat) :
    List Entry :=
  if hasId entries c then entries
  else entries ++ [⟨c, ch, parentIds.map (posOfId entries)⟩]

/-- C8: `add_commit` is idempotent — re-adding an already-indexed commit id
leaves the entry list unchanged, so neither `num_commits()` nor any
generation number changes. -/
theorem C8_addCommit_idempotent (entries : List Entry) (c : Nat) (ch : List Nat)
    (parentIds : List Nat) (h : hasId entries c = true) :
    addCommit entries c ch parentIds = entries
    ∧ (addCommit entries c ch parentIds).length = entries.length
    ∧ genTable ((addCommit entries c ch parentIds).map Entry.parents)
        = genTable (entries.map Entry.parents) := by
  have he : addCommit entries c ch parentIds = entries := by
    rw [addCommit, if_pos h]
  exact ⟨he, by rw [he], by rw [he]⟩

/-- The root-plus-A index of `test_index_commits_incremental_already_indexed`. -/
def idxRootA : List Entry := [⟨0, [0, 0], []⟩, ⟨100, [1, 2], [0]⟩]

/-- Witness for C8: re-adding commit A (id 100) is a no-op. -/
theorem C8_witness :
    addCommit idxRootA 100 [1, 2] [0] = idxRootA
    ∧ (addCommit idxRootA 100 [1, 2] [0]).length = idxRootA.length
    ∧ genTable ((addCommit idxRootA 100 [1, 2] [0]).map Entry.parents)
        = genTable (idxRootA.map Entry.parents) :=
  C8_addCommit_idempotent idxRootA 100 [1, 2] [0] (by decide)

/-- The parent DAG underlying a full-entry index. -/
def entryDag (entries : List Entry) : Dag := entries.map Entry.parents

/-- Modelled from the spec: §4.5 — the Change-Id Index "collects all commits
reachable from H via the Ancestry Engine (restricting results strictly to
that view)". -/
def reachableEntries (entries : List Entry) (heads : List Nat) : List Entry :=
  (ancestorsOf (entryDag entries) heads).filterMap (fun p => entries.get? p)

/-- Result of prefix resolution (models `PrefixResolution`). -/
inductive PrefixResolution where
  | noMatch
  | singleMatch (cids : List Nat)
  | ambiguousMatch
deriving DecidableEq

/-- The reachable entries whose change id starts with the queried hex
digits. -/
def matchingEntries (entries : List Entry) (heads : List Nat) (px : List Nat) : List Entry :=
  (reachableEntries entries heads).filter (fun e => px.isPrefixOf e.chid)

/-- Modelled from the spec: `resolve_prefix` of §4.5 — `NoMatch` when no
reachable change id has the prefix, one `SingleMatch` holding every commit id
of the single matching change id (divergent commits are grouped, not
ambiguous), `AmbiguousMatch` when two or more distinct reachable change ids
share the prefix. -/
def resolvePfx (entries : List Entry) (heads : List Nat) (px : List Nat) : PrefixResolution :=
  match ((matchingEntries entries heads px).map Entry.chid).dedup with
  | [] => .noMatch
  | [_] => .singleMatch (((matchingEntries entries heads px).map Entry.cid).dedup)
  | _ => .ambiguousMatch

/-- The index of `test_change_id_index`: the root plus five commits on it,
with change ids (hex digits) "abbbbb", "aaaaab", "aaaaaa", "bbbbbb",
"bbbbbb" — the last two divergent. -/
def chIdx : List Entry :=
  [⟨0, [0, 0, 0, 0, 0, 0], []⟩,
   ⟨101, [10, 11, 11, 11, 11, 11], [0]⟩,
   ⟨102, [10, 10, 10, 10, 10, 11], [0]⟩,
   ⟨103, [10, 10, 10, 10, 10, 10], [0]⟩,
   ⟨104, [11, 11, 11, 11, 11, 11], [0]⟩,
   ⟨105, [11, 11, 11, 11, 11, 11], [0]⟩]

theorem mem_reachableEntries (entries : List Entry) (heads : List Nat)
    (hwf : WfDag (entryDag entries)) (hheads : ∀ b ∈ heads, b < entries.length) (e : Entry) :
    e ∈ reachableEntries entries heads ↔
      ∃ p, (∃ b ∈ heads, Reaches (entryDag entries) p b) ∧ entries.get? p = some e := by
  have hh : ∀ b ∈ heads, b < (entryDag entries).length := by
    intro b hb
    have := hheads b hb
    simpa [entryDag] using this
  unfold reachableEntries
  rw [List.mem_filterMap]
  constructor
  · rintro ⟨p, hp, hget⟩
    rw [mem_ancestorsOf_iff _ hwf _ hh] at hp
    exact ⟨p, hp, hget⟩
  · rintro ⟨p, hp, hget⟩
    refine ⟨p, ?_, hget⟩
    rw [mem_ancestorsOf_iff _ hwf _ hh]
    exact hp

theorem two_le_dedup_iff {α : Type} [DecidableEq α] (l : List α) :
    2 ≤ l.dedup.length ↔ ∃ x ∈ l, ∃ y ∈ l, x ≠ y := by
  constructor
  · intro h
    match hd : l.dedup with
    | [] => rw [hd] at h; simp at h
    | [x] => rw [hd] at h; simp at h
    | x :: y :: rest =>
      have hnd : l.dedup.Nodup := l.nodup_dedup
      rw [hd] at hnd
      have hxy : x ≠ y := (List.pairwise_cons.mp hnd).1 y (by simp)
      have hx : x ∈ l := List.mem_dedup.mp (by rw [hd]; simp)
      have hy : y ∈ l := List.mem_dedup.mp (by rw [hd]; simp)
      exact ⟨x, hx, y, hy, hxy⟩
  · rintro ⟨x, hx, y, hy, hxy⟩
    by_contra hlt
    push_neg at hlt
    match hd : l.dedup with
    | [] =>
      have : x ∈ l.dedup := List.mem_dedup.mpr hx
      rw [hd] at this
      simp at this
    | [z] =>
      have hxz : x ∈ l.dedup := List.mem_dedup.mpr hx
      have hyz : y ∈ l.dedup := List.mem_dedup.mpr hy
      rw [hd] at hxz hyz
      simp at hxz hyz
      exact hxy (hxz.trans hyz.symm)
    | a :: b :: rest =>
      rw [hd] at hlt
      simp at hlt
      omega

theorem dedup_eq_single {α : Type} [DecidableEq α] (l : List α) (hne : l ≠ [])
    (hall : ∀ x ∈ l, ∀ y ∈ l, x = y) : ∃ d, l.dedup = [d] := by
  have h2 : ¬ 2 ≤ l.dedup.length := by
    rw [two_le_dedup_iff]
    rintro ⟨x, hx, y, hy, hxy⟩
    exact hxy (hall x hx y hy)
  obtain ⟨x, hx⟩ := List.exists_mem_of_ne_nil l hne
  have h0 : l.dedup ≠ [] := List.ne_nil_of_mem (List.mem_dedup.mpr hx)
  have hpos : 0 < l.dedup.length := List.length_pos.mpr h0
  exact List.length_eq_one.mp (by omega)

/-- C6: the change-id index never resolves a prefix to a commit unreachable
from the head set `H`: every commit id inside a `SingleMatch` belongs to an
entry reachable from `heads` whose change id carries the prefix, and a prefix
carried only by change ids of unreachable entries yields `NoMatch`, even
though those colliding entries exist in the index/object store. -/
theorem C6_change_id_reachability (entries : List Entry) (heads : List Nat) (px : List Nat)
    (hwf : WfDag (entryDag entries)) (hheads : ∀ b ∈ heads, b < entries.length) :
    (∀ cids c, resolvePfx entries heads px = .singleMatch cids → c ∈ cids →
      ∃ p e, (∃ b ∈ heads, Reaches (entryDag entries) p b)
        ∧ entries.get? p = some e ∧ e.cid = c ∧ px.isPrefixOf e.chid = true)
    ∧ ((∀ p e, entries.get? p = some e → px.isPrefixOf e.chid = true →
          ¬ ∃ b ∈ heads, Reaches (entryDag entries) p b) →
        resolvePfx entries heads px = .noMatch) := by
  constructor
  · intro cids c hres hc
    unfold resolvePfx at hres
    split at hres
    · exact absurd hres (by simp)
    · injection hres with h
      subst h
      have hc' : c ∈ (matchingEntries entries heads px).map Entry.cid :=
        List.mem_dedup.mp hc
      obtain ⟨e, he, hcid⟩ := List.mem_map.mp hc'
      obtain ⟨hre, hpx⟩ := List.mem_filter.mp he
      obtain ⟨p, hreach, hget⟩ := (mem_reachableEntries entries heads hwf hheads e).mp hre
      exact ⟨p, e, hreach, hget, hcid, hpx⟩
    · exact absurd hres (by simp)
  · intro hnone
    have hms : matchingEntries entries heads px = [] := by
      unfold matchingEntries
      rw [List.filter_eq_nil_iff]
      intro e he hpx
      obtain ⟨p, hreach, hget⟩ := (mem_reachableEntries entries heads hwf hheads e).mp he
      exact hnone p e hget hpx hreach
    unfold resolvePfx
    rw [hms]
    rfl

/-- Witness for C6 on the `test_change_id_index` scenario with heads
restricted to commits 1 and 2: a full-length prefix held only by the
unreachable commit 3 resolves to `NoMatch`. -/
theorem C6_witness :
    ((∀ cids c, resolvePfx chIdx [1, 2] [10, 10, 10, 10, 10, 10] = .singleMatch cids →
        c ∈ cids →
      ∃ p e, (∃ b ∈ [1, 2], Reaches (entryDag chIdx) p b)
        ∧ chIdx.get? p = some e ∧ e.cid = c
        ∧ [10, 10, 10, 10, 10, 10].isPrefixOf e.chid = true)
    ∧ ((∀ p e, chIdx.get? p = some e →
          [10, 10, 10, 10, 10, 10].isPrefixOf e.chid = true →
          ¬ ∃ b ∈ [1, 2], Reaches (entryDag chIdx) p b) →
        resolvePfx chIdx [1, 2] [10, 10, 10, 10, 10, 10] = .noMatch))
    ∧ resolvePfx chIdx [1, 2] [10, 10, 10, 10, 10, 10] = .noMatch :=
  ⟨C6_change_id_reachability chIdx [1, 2] [10, 10, 10, 10, 10, 10] (by decide) (by decide),
    by decide⟩

/-- C7: `resolve_prefix` answers `AmbiguousMatch` exactly when two reachable
entries with distinct change ids both carry the prefix; when every matching
entry shares one change id (divergence), all their commit ids are returned
together in one `SingleMatch` set, never as `AmbiguousMatch`. -/
theorem C7_ambiguity (entries : List Entry) (heads : List Nat) (px : List Nat) :
    (resolvePfx entries heads px = .ambiguousMatch ↔
      ∃ e₁ ∈ reachableEntries entries heads, ∃ e₂ ∈ reachableEntries entries heads,
        px.isPrefixOf e₁.chid = true ∧ px.isPrefixOf e₂.chid = true ∧ e₁.chid ≠ e₂.chid)
    ∧ (matchingEntries entries heads px ≠ [] →
      (∀ e₁ ∈ matchingEntries entries heads px, ∀ e₂ ∈ matchingEntries entries heads px,
        e₁.chid = e₂.chid) →
      ∃ s, resolvePfx entries heads px = .singleMatch s
        ∧ ∀ e ∈ matchingEntries entries heads px, e.cid ∈ s) := by
  have hiff : (∃ e₁ ∈ reachableEntries entries heads, ∃ e₂ ∈ reachableEntries entries heads,
      px.isPrefixOf e₁.chid = true ∧ px.isPrefixOf e₂.chid = true ∧ e₁.chid ≠ e₂.chid) ↔
      2 ≤ ((matchingEntries entries heads px).map Entry.chid).dedup.length := by
    rw [two_le_dedup_iff]
    constructor
    · rintro ⟨e₁, he₁, e₂, he₂, hp₁, hp₂, hne⟩
      refine ⟨e₁.chid, ?_, e₂.chid, ?_, hne⟩
      · exact List.mem_map_of_mem _ (List.mem_filter.mpr ⟨he₁, hp₁⟩)
      · exact List.mem_map_of_mem _ (List.mem_filter.mpr ⟨he₂, hp₂⟩)
    · rintro ⟨x, hx, y, hy, hne⟩
      obtain ⟨e₁, he₁, rfl⟩ := List.mem_map.mp hx
      obtain ⟨e₂, he₂, rfl⟩ := List.mem_map.mp hy
      obtain ⟨hr₁, hp₁⟩ := List.mem_filter.mp he₁
      obtain ⟨hr₂, hp₂⟩ := List.mem_filter.mp he₂
      exact ⟨e₁, hr₁, e₂, hr₂, hp₁, hp₂, hne⟩
  constructor
  · rw [hiff]
    constructor
    · intro hres
      unfold resolvePfx at hres
      split at hres
      · exact absurd hres (by simp)
      · exact absurd hres (by simp)
      · rename_i heq₁ heq₂
        match hd : ((matchingEntries entries heads px).map Entry.chid).dedup with
        | [] => exact (heq₁ hd).elim
        | [d] => exact (heq₂ d hd).elim
        | a :: b :: rest => simp
    · intro hlen
      unfold resolvePfx
      split
      · rename_i hd
        rw [hd] at hlen
        simp at hlen
      · rename_i hd
        rw [hd] at hlen
        simp at hlen
      · rfl
  · intro hne hall
    have hmapne : (matchingEntries entries heads px).map Entry.chid ≠ [] := by
      simpa using hne
    have hmapall : ∀ x ∈ (matchingEntries entries heads px).map Entry.chid,
        ∀ y ∈ (matchingEntries entries heads px).map Entry.chid, x = y := by
      rintro x hx y hy
      obtain ⟨e₁, he₁, rfl⟩ := List.mem_map.mp hx
      obtain ⟨e₂, he₂, rfl⟩ := List.mem_map.mp hy
      exact hall e₁ he₁ e₂ he₂
    obtain ⟨d, hd⟩ := dedup_eq_single _ hmapne hmapall
    refine ⟨((matchingEntries entries heads px).map Entry.cid).dedup, ?_, ?_⟩
    · unfold resolvePfx
      rw [hd]
    · intro e he
      exact List.mem_dedup.mpr (List.mem_map_of_mem _ he)

/-- Witness for C7 on the `test_change_id_index` scenario with all five heads:
prefix "a" is ambiguous, and the divergent commits 4 and 5 of change id
"bbbbbb" resolve together as one single match. -/
theorem C7_witness :
    ((resolvePfx chIdx [1, 2, 3, 4, 5] [10] = .ambiguousMatch ↔
      ∃ e₁ ∈ reachableEntries chIdx [1, 2, 3, 4, 5],
        ∃ e₂ ∈ reachableEntries chIdx [1, 2, 3, 4, 5],
        [10].isPrefixOf e₁.chid = true ∧ [10].isPrefixOf e₂.chid = true ∧ e₁.chid ≠ e₂.chid)
    ∧ (matchingEntries chIdx [1, 2, 3, 4, 5] [10] ≠ [] →
      (∀ e₁ ∈ matchingEntries chIdx [1, 2, 3, 4, 5] [10],
        ∀ e₂ ∈ matchingEntries chIdx [1, 2, 3, 4, 5] [10], e₁.chid = e₂.chid) →
      ∃ s, resolvePfx chIdx [1, 2, 3, 4, 5] [10] = .singleMatch s
        ∧ ∀ e ∈ matchingEntries chIdx [1, 2, 3, 4, 5] [10], e.cid ∈ s))
    ∧ resolvePfx chIdx [1, 2, 3, 4, 5] [10] = .ambiguousMatch
    ∧ resolvePfx chIdx [1, 2, 3, 4, 5] [11] = .singleMatch [105, 104] :=
  ⟨C7_ambiguity chIdx [1, 2, 3, 4, 5] [10], by decide, by decide⟩

/-- One operation of the operation log, as Recovery sees it: its id and the
commit ids its visible state references, in topological order. -/
structure OpRec where
  opId : Nat
  commits : List Nat
deriving DecidableEq

/-- The content-addressed object store: commit id to parent commit ids. -/
abbrev Store := List (Nat × List Nat)

/-- Object-store lookup by commit id. -/
def lookupStore (store : Store) (c : Nat) : Option (List Nat) :=
  (store.find? (fun e => e.1 == c)).map Prod.snd

/-- Whether a commit id is already in the rebuilt index. -/
def hasCid (entries : List (Nat × List Nat)) (c : Nat) : Bool :=
  entries.any (fun e => e.1 == c)

/-- Modelled from the spec: re-adding one operation's visible commits during
reindexing (§4.7) — already-indexed ids are skipped, an id that cannot be
found in the object store aborts with the error carrying this operation's
id (`IndexCommits{op_id, cause}`), never silently skipping the commit. -/
def addOpCommits (store : Store) (opid : Nat) :
    List Nat → List (Nat × List Nat) → Except Nat (List (Nat × List Nat))
  | [], entries => .ok entries
  | c :: cs, entries =>
    if hasCid entries c then addOpCommits store opid cs entries
    else
      match lookupStore store c with
      | none => .error opid
      | some ps => addOpCommits store opid cs (entries ++ [(c, ps)])

/-- Modelled from the spec: `build_index_at_operation` (§4.7) — replay the
operation log oldest first, re-adding every historically visible commit. -/
def buildIndexAtOp (store : Store) :
    List OpRec → List (Nat × List Nat) → Except Nat (List (Nat × List Nat))
  | [], entries => .ok entries
  | op :: ops, entries =>
    match addOpCommits store op.opId op.commits entries with
    | .error e => .error e
    | .ok entries' => buildIndexAtOp store ops entries'

theorem addOpCommits_ok (store : Store) (opid : Nat) :
    ∀ (cs : List Nat) (entries : List (Nat × List Nat)),
    (∀ c ∈ cs, lookupStore store c ≠ none) →
    (∀ e ∈ entries, lookupStore store e.1 ≠ none) →
    ∃ entries', addOpCommits store opid cs entries = .ok entries'
      ∧ ∀ e ∈ entries', lookupStore store e.1 ≠ none := by
  intro cs
  induction cs with
  | nil =>
    intro entries _ hinv
    exact ⟨entries, rfl, hinv⟩
  | cons c cs ih =>
    intro entries hall hinv
    rw [addOpCommits]
    by_cases hc : hasCid entries c
    · rw [if_pos hc]
      exact ih entries (fun x hx => hall x (List.mem_cons_of_mem c hx)) hinv
    · rw [if_neg hc]
      have hfound : lookupStore store c ≠ none := hall c (List.mem_cons_self c cs)
      match hl : lookupStore store c with
      | none => exact absurd hl hfound
      | some ps =>
        refine ih (entries ++ [(c, ps)]) (fun x hx => hall x (List.mem_cons_of_mem c hx)) ?_
        intro e he
        rcases List.mem_append.mp he with he | he
        · exact hinv e he
        · simp at he
          rw [he]
          simp [hl]

theorem addOpCommits_error (store : Store) (opid : Nat) :
    ∀ (cs : List Nat) (entries : List (Nat × List Nat)),
    (∃ c ∈ cs, lookupStore store c = none) →
    (∀ e ∈ entries, lookupStore store e.1 ≠ none) →
    addOpCommits store opid cs entries = .error opid := by
  intro cs
  induction cs with
  | nil =>
    rintro entries ⟨c, hc, _⟩ _
    simp at hc
  | cons c cs ih =>
    rintro entries ⟨m, hm, hmiss⟩ hinv
    rw [addOpCommits]
    by_cases hc : hasCid entries c
    · rw [if_pos hc]
      have hmcs : m ∈ cs := by
        rcases List.mem_cons.mp hm with hm | hm
        · subst hm
          obtain ⟨e, he, heq⟩ := List.any_eq_true.mp hc
          exact absurd (by rw [eq_of_beq heq]; exact hmiss) (hinv e he)
        · exact hm
      exact ih entries ⟨m, hmcs, hmiss⟩ hinv
    · rw [if_neg hc]
      match hl : lookupStore store c with
      | none => rfl
      | some ps =>
        have hmcs : m ∈ cs := by
          rcases List.mem_cons.mp hm with hm | hm
          · subst hm
            rw [hl] at hmiss
            exact absurd hmiss (by simp)
          · exact hm
        refine ih (entries ++ [(c, ps)]) ⟨m, hmcs, hmiss⟩ ?_
        intro e he
        rcases List.mem_append.mp he with he | he
        · exact hinv e he
        · simp at he
          rw [he]
          simp [hl]

/-- C9: when reindexing reaches an operation referencing a commit id that
cannot be found in the object store, `build_index_at_operation` fails with
`IndexCommits` carrying exactly that operation's id (all earlier operations'
commits being present), rather than silently skipping the commit. -/
theorem C9_reindex_missing_commit (store : Store) (pre post : List OpRec) (op : OpRec)
    (hpre : ∀ o ∈ pre, ∀ c ∈ o.commits, lookupStore store c ≠ none)
    (hmiss : ∃ c ∈ op.commits, lookupStore store c = none) :
    buildIndexAtOp store (pre ++ op :: post) [] = .error op.opId := by
  suffices h : ∀ (pre : List OpRec) (entries : List (Nat × List Nat)),
      (∀ o ∈ pre, ∀ c ∈ o.commits, lookupStore store c ≠ none) →
      (∀ e ∈ entries, lookupStore store e.1 ≠ none) →
      buildIndexAtOp store (pre ++ op :: post) entries = .error op.opId by
    exact h pre [] hpre (by simp)
  intro pre
  induction pre with
  | nil =>
    intro entries _ hinv
    rw [List.nil_append, buildIndexAtOp]
    rw [addOpCommits_error store op.opId op.commits entries hmiss hinv]
  | cons o pre ih =>
    intro entries hall hinv
    rw [List.cons_append, buildIndexAtOp]
    obtain ⟨entries', hok, hinv'⟩ :=
      addOpCommits_ok store o.opId o.commits entries
        (hall o (List.mem_cons_self o pre)) hinv
    rw [hok]
    exact ih entries' (fun x hx => hall x (List.mem_cons_of_mem o hx)) hinv'

/-- Witness for C9: the `test_reindex_missing_commit` scenario — operation 1
adds commit 100, operation 2 removes it as a head; commit 100 is gone from
the store, so rebuilding blames operation 1. -/
theorem C9_witness :
    buildIndexAtOp [] [⟨1, [100]⟩, ⟨2, []⟩] [] = .error 1 :=
  C9_reindex_missing_commit [] [] [⟨2, []⟩] ⟨1, [100]⟩ (by simp)
    ⟨100, by simp, by decide⟩

end JJ
